import Mathlib

/-!
Shallow embedding of the secure tunnel core of `gosuda/portal`
(`src/portal/wasm/src/crypto.rs` and `src/portal/wasm/src/ws_stream.rs`).

Bytes are modelled as `Nat` values; well-formed bytes are `< 256` and
arithmetic that the Rust code performs on `u8` is taken `% 256`.
Fallible operations return `Except IOErrorKind`; the async transport is
modelled by explicit byte lists (for reads) and by an optional injected
transport error (for writes).  The external cryptographic primitives
(ChaCha20-Poly1305, X25519, HKDF-SHA256, Ed25519) are abstracted as
function parameters, since the claims under verification concern the
wiring, validation and nonce discipline of `crypto.rs`, not the
primitives themselves.
-/

namespace Portal

/-- Error kinds used by the Rust code (`std::io::ErrorKind`).  `panicked`
models a Rust panic (an `unwrap()` on a failed conversion). -/
inductive IOErrorKind where
  | invalidData
  | unexpectedEof
  | brokenPipe
  | other
  | panicked
  deriving DecidableEq, Repr

/-- Little-endian value of a byte list (head is least significant). -/
def leVal : List Nat → Nat
  | [] => 0
  | b :: rest => b + 256 * leVal rest

/-- Big-endian value of a byte list, as `u32::from_be_bytes` and the
spec's "12-byte integer" read their bytes. -/
def beVal (l : List Nat) : Nat := leVal l.reverse

/-- All entries are valid byte values. -/
def isBytes (l : List Nat) : Prop := ∀ b ∈ l, b < 256

instance (l : List Nat) : Decidable (isBytes l) := by
  unfold isBytes; infer_instance

/-- Helper for `increment_nonce`, operating on the reversed
(little-endian-first) byte list: add one to the first byte, and on wrap
to zero carry into the rest, exactly as the Rust loop
`for byte in nonce.iter_mut().rev()` does. -/
def incAux : List Nat → List Nat
  | [] => []
  | b :: rest =>
    let b' := (b + 1) % 256
    if b' = 0 then b' :: incAux rest else b' :: rest

/-- `increment_nonce` from `crypto.rs`: increment the last byte first,
with carry rippling toward the first byte; stops at the first byte that
does not wrap to zero.  Total: the all-ones nonce wraps to all-zeros. -/
def increment_nonce (nonce : List Nat) : List Nat :=
  (incAux nonce.reverse).reverse

theorem incAux_length (l : List Nat) : (incAux l).length = l.length := by
  induction l with
  | nil => rfl
  | cons b rest ih =>
    simp only [incAux]
    by_cases h : (b + 1) % 256 = 0 <;> simp [h, ih]

theorem increment_nonce_length (l : List Nat) :
    (increment_nonce l).length = l.length := by
  simp [increment_nonce, incAux_length]

theorem leVal_lt (l : List Nat) (h : isBytes l) : leVal l < 256 ^ l.length := by
  induction l with
  | nil => simp [leVal]
  | cons b rest ih =>
    have hb : b < 256 := h b (List.mem_cons_self b rest)
    have hrest : isBytes rest := fun x hx => h x (List.mem_cons_of_mem b hx)
    have := ih hrest
    simp only [leVal, List.length_cons, pow_succ]
    calc b + 256 * leVal rest
        ≤ 255 + 256 * leVal rest := by omega
      _ < 256 * (leVal rest + 1) := by omega
      _ ≤ 256 * 256 ^ rest.length := by
          have : leVal rest + 1 ≤ 256 ^ rest.length := this
          exact Nat.mul_le_mul_left 256 this
      _ = 256 ^ rest.length * 256 := by ring

theorem incAux_isBytes (l : List Nat) (h : isBytes l) : isBytes (incAux l) := by
  induction l with
  | nil => exact h
  | cons b rest ih =>
    have hrest : isBytes rest := fun x hx => h x (List.mem_cons_of_mem b hx)
    simp only [incAux]
    by_cases hz : (b + 1) % 256 = 0
    · simp only [hz, if_pos rfl]
      intro x hx
      rcases List.mem_cons.mp hx with hx | hx
      · omega
      · exact ih hrest x hx
    · simp only [if_neg hz]
      intro x hx
      rcases List.mem_cons.mp hx with hx | hx
      · subst hx; exact Nat.mod_lt _ (by omega)
      · exact hrest x hx

/-- Core arithmetic fact: on valid bytes, `incAux` computes `+1`
modulo `256 ^ length` in the little-endian reading. -/
theorem leVal_incAux (l : List Nat) (h : isBytes l) :
    leVal (incAux l) = (leVal l + 1) % 256 ^ l.length := by
  induction l with
  | nil => simp [incAux, leVal]
  | cons b rest ih =>
    have hb : b < 256 := h b (List.mem_cons_self b rest)
    have hrest : isBytes rest := fun x hx => h x (List.mem_cons_of_mem b hx)
    simp only [incAux]
    by_cases hz : (b + 1) % 256 = 0
    · -- b = 255: byte wraps to zero and the carry propagates
      have hb255 : b = 255 := by omega
      subst hb255
      simp only [hz, if_pos rfl, leVal, List.length_cons, ih hrest]
      have hmul : 256 ^ (rest.length + 1) = 256 * 256 ^ rest.length := by ring
      rw [hmul]
      have : (255 : Nat) + 256 * leVal rest + 1 = 256 * (leVal rest + 1) := by ring
      rw [this, Nat.mul_mod_mul_left]
      omega
    · -- no wrap: only the first byte changes
      have hb' : (b + 1) % 256 = b + 1 := by omega
      simp only [if_neg hz, leVal, hb', List.length_cons]
      have hlt : b + 1 + 256 * leVal rest < 256 ^ (rest.length + 1) := by
        have h1 : leVal rest < 256 ^ rest.length := leVal_lt rest hrest
        have h2 : 256 ^ (rest.length + 1) = 256 * 256 ^ rest.length := by ring
        omega
      rw [Nat.mod_eq_of_lt (by omega)]
      ring

theorem isBytes_reverse (l : List Nat) (h : isBytes l) : isBytes l.reverse :=
  fun b hb => h b (List.mem_reverse.mp hb)

/-- `increment_nonce` computes `+1 mod 256^len` in the big-endian reading. -/
theorem beVal_increment_nonce (l : List Nat) (h : isBytes l) :
    beVal (increment_nonce l) = (beVal l + 1) % 256 ^ l.length := by
  unfold beVal increment_nonce
  rw [List.reverse_reverse, leVal_incAux l.reverse (isBytes_reverse l h),
    List.length_reverse]

theorem increment_nonce_isBytes (l : List Nat) (h : isBytes l) :
    isBytes (increment_nonce l) := by
  intro b hb
  exact incAux_isBytes l.reverse (isBytes_reverse l h) b
    (List.mem_reverse.mp hb)

/-! ## Data model (protobuf messages from `proto`) -/

/-- `Identity` message: credential id and Ed25519 public key bytes. -/
structure Identity where
  id : String
  public_key : List Nat
  deriving DecidableEq, Repr

/-- `SignedPayload` message: serialized inner payload plus signature. -/
structure SignedPayload where
  data : List Nat
  signature : List Nat
  deriving DecidableEq, Repr

/-- `ServerInitPayload` message (already decoded from the wire). -/
structure ServerInitPayload where
  version : Int
  nonce : List Nat
  timestamp : Int
  identity : Option Identity
  alpn : String
  session_public_key : List Nat
  deriving DecidableEq, Repr

/-- `EncryptedData` message: on-wire nonce plus AEAD ciphertext. -/
structure EncryptedData where
  nonce : List Nat
  payload : List Nat
  deriving DecidableEq, Repr

/-- `SecureConnection` state: the two directional AEAD keys (standing in
for the `encryptor`/`decryptor` cipher objects, which are functions of
their key) and the two 12-byte nonce counters.  The transport `conn` is
modelled outside the structure. -/
structure SecureConnection where
  encryptKey : List Nat
  decryptKey : List Nat
  encryptNonce : List Nat
  decryptNonce : List Nat
  deriving DecidableEq, Repr

def NONCE_SIZE : Nat := 12
def SESSION_KEY_SIZE : Nat := 32
def MAX_RAW_PACKET_SIZE : Nat := 2 ^ 26

/-- ASCII bytes of the literal `b"RDSEC_KEY_CLIENT"`. -/
def CLIENT_KEY_INFO : List Nat := "RDSEC_KEY_CLIENT".data.map Char.toNat

/-- ASCII bytes of the literal `b"RDSEC_KEY_SERVER"`. -/
def SERVER_KEY_INFO : List Nat := "RDSEC_KEY_SERVER".data.map Char.toNat

/-! ## Abstract cryptographic primitives

`EdVerify pk msg sig` abstracts `VerifyingKey::from_bytes(pk)` followed
by `verify_strict(msg, sig)` on exactly-32-byte `pk` and exactly-64-byte
`sig`; `Dh spk` abstracts `ephemeral_secret.diffie_hellman(spk)` for the
handshake's fixed ephemeral secret; `Hkdf salt ikm info len` abstracts
`Hkdf::<Sha256>::new(Some(salt), ikm).expand(info, len)`; `AeadEnc` /
`AeadDec` abstract `ChaCha20Poly1305` seal and open under the channel
key, taking the nonce and the plaintext/ciphertext. -/

def EdVerifyT : Type := List Nat → List Nat → List Nat → Bool
def DhT : Type := List Nat → List Nat
def HkdfT : Type := List Nat → List Nat → List Nat → Nat → List Nat
def AeadEncT : Type := List Nat → List Nat → Option (List Nat)
def AeadDecT : Type := List Nat → List Nat → Option (List Nat)

/-- `verify_signature` from `crypto.rs`: convert `identity.public_key`
to `[u8; 32]` (error when not 32 bytes), parse it as a verifying key,
convert `signed.signature` to `[u8; 64]` (error when not 64 bytes), and
verify strictly; key parsing and strict verification are folded into
`edVerify`. -/
def verify_signature (edVerify : EdVerifyT) (identity : Identity)
    (signed : SignedPayload) : Except IOErrorKind Unit :=
  if identity.public_key.length ≠ 32 then .error .invalidData
  else if signed.signature.length ≠ 64 then .error .invalidData
  else if edVerify identity.public_key signed.data signed.signature then .ok ()
  else .error .invalidData

/-- `derive_key` from `crypto.rs`: HKDF-SHA256 with the given salt over
the shared secret, expanded with `info` to `SESSION_KEY_SIZE` bytes. -/
def derive_key (hkdf : HkdfT) (shared_secret salt info : List Nat) : List Nat :=
  hkdf salt shared_secret info SESSION_KEY_SIZE

/-- The validation and key-schedule part of
`SecureConnection::client_handshake`, from the point where the server's
`SignedPayload` and inner `ServerInitPayload` have been read from the
transport and decoded.  `clientNonce` is the 12-byte random nonce drawn
in step 2.  Follows `crypto.rs` lines 151-191: version check, identity
presence, signature verification, 32-byte server session key, X25519,
the two HKDF salts, and the initial nonce counters.  The final
`try_into().unwrap()` calls on the two nonces panic when a nonce is not
exactly 12 bytes; that is modelled by `.error .panicked`. -/
def client_handshake (edVerify : EdVerifyT) (dh : DhT) (hkdf : HkdfT)
    (clientNonce : List Nat) (serverSigned : SignedPayload)
    (serverInit : ServerInitPayload) : Except IOErrorKind SecureConnection :=
  if serverInit.version ≠ 1 then .error .invalidData
  else
    match serverInit.identity with
    | none => .error .invalidData
    | some serverIdentity =>
      match verify_signature edVerify serverIdentity serverSigned with
      | .error e => .error e
      | .ok _ =>
        if serverInit.session_public_key.length ≠ 32 then .error .invalidData
        else
          let shared_secret := dh serverInit.session_public_key
          let client_salt := clientNonce ++ serverInit.nonce
          let encrypt_key := derive_key hkdf shared_secret client_salt CLIENT_KEY_INFO
          let server_salt := serverInit.nonce ++ clientNonce
          let decrypt_key := derive_key hkdf shared_secret server_salt SERVER_KEY_INFO
          if clientNonce.length ≠ NONCE_SIZE then .error .panicked
          else if serverInit.nonce.length ≠ NONCE_SIZE then .error .panicked
          else .ok { encryptKey := encrypt_key, decryptKey := decrypt_key,
                     encryptNonce := clientNonce, decryptNonce := serverInit.nonce }

/-- `SecureConnection::read`, from the point where the length-prefixed
frame has been read and decoded into an `EncryptedData`.  Returns the
connection state after the call together with the result
`(copied count, bytes copied into the caller's buffer)`; the caller's
buffer has length `bufLen`.  Follows `crypto.rs` lines 195-233: nonce
size check, bytewise comparison against the decrypt counter, decryption
under the tracked nonce, increment of the decrypt nonce only after a
successful decryption, then copy of `min(buf.len, pt.len)` bytes. -/
def SecureConnection.read (dec : AeadDecT) (conn : SecureConnection)
    (frame : EncryptedData) (bufLen : Nat) :
    SecureConnection × Except IOErrorKind (Nat × List Nat) :=
  if frame.nonce.length ≠ NONCE_SIZE then (conn, .error .invalidData)
  else if frame.nonce ≠ conn.decryptNonce then (conn, .error .invalidData)
  else
    match dec conn.decryptNonce frame.payload with
    | none => (conn, .error .invalidData)
    | some decrypted =>
      let to_copy := min bufLen decrypted.length
      ({ conn with decryptNonce := increment_nonce conn.decryptNonce },
       .ok (to_copy, decrypted.take to_copy))

/-- `SecureConnection::write`.  `sendErr` injects a transport error for
the length-prefixed frame write (`none` = the transport accepts the
frame).  Returns the connection state after the call together with the
result `(emitted frame, returned count)`.  Follows `crypto.rs` lines
236-257: the nonce is incremented first, then encryption (fallible),
then the `EncryptedData` frame carrying the incremented nonce is sent. -/
def SecureConnection.write (enc : AeadEncT) (sendErr : Option IOErrorKind)
    (conn : SecureConnection) (buf : List Nat) :
    SecureConnection × Except IOErrorKind (EncryptedData × Nat) :=
  let nonce' := increment_nonce conn.encryptNonce
  let conn' := { conn with encryptNonce := nonce' }
  match enc nonce' buf with
  | none => (conn', .error .invalidData)
  | some encrypted =>
    match sendErr with
    | some e => (conn', .error e)
    | none => (conn', .ok ({ nonce := nonce', payload := encrypted }, buf.length))

/-! ## Frame codec -/

/-- `u32::to_be_bytes`. -/
def u32be (n : Nat) : List Nat :=
  [n / 2 ^ 24 % 256, n / 2 ^ 16 % 256, n / 2 ^ 8 % 256, n % 256]

/-- `write_length_prefixed` from `crypto.rs`: emit the payload length as
`u32` big-endian (the `as u32` cast truncates mod `2^32`), then the
payload, then flush.  `sendErr` injects a transport error; with a
healthy transport the function always succeeds — the source performs no
size validation on the write path. -/
def write_length_prefixed (sendErr : Option IOErrorKind) (data : List Nat) :
    Except IOErrorKind (List Nat) :=
  match sendErr with
  | some e => .error e
  | none => .ok (u32be (data.length % 2 ^ 32) ++ data)

/-- `read_length_prefixed` from `crypto.rs` over a finite byte stream
(the stream ends after the listed bytes): read 4 bytes as a big-endian
length `L` (fewer than 4 available is `UnexpectedEof` from
`read_exact`), reject `L > MAX_RAW_PACKET_SIZE` before touching the
payload, then read exactly `L` bytes (`UnexpectedEof` when the stream
ends first).  Returns the payload and the unconsumed remainder. -/
def read_length_prefixed (stream : List Nat) :
    Except IOErrorKind (List Nat × List Nat) :=
  if stream.length < 4 then .error .unexpectedEof
  else
    let len := beVal (stream.take 4)
    let rest := stream.drop 4
    if len > MAX_RAW_PACKET_SIZE then .error .invalidData
    else if rest.length < len then .error .unexpectedEof
    else .ok (rest.take len, rest.drop len)

/-! ## WebSocket stream adapter (`ws_stream.rs`) -/

/-- Poll outcome of an async read. -/
inductive Poll (α : Type) where
  | ready (a : α)
  | pending
  deriving DecidableEq, Repr

/-- Observable state of a `WebSocketStream`: the receive FIFO, the
closed latch and the optional error descriptor (wakers are scheduling
detail with no bearing on the returned value). -/
structure WsState where
  read_buffer : List Nat
  closed : Bool
  error : Option String
  deriving DecidableEq, Repr

/-- `WebSocketStream::poll_read` (`ws_stream.rs` lines 138-169): a set
error is returned first; a closed stream with an empty queue is EOF
(`Ready(Ok(0))`); an empty queue registers the waker and suspends;
otherwise `min(buf.len, queue.len)` bytes are dequeued.  Returns the
poll result `(count, bytes copied)` and the state after the call. -/
def WsState.poll_read (st : WsState) (bufLen : Nat) :
    Poll (Except IOErrorKind (Nat × List Nat)) × WsState :=
  match st.error with
  | some _ => (.ready (.error .other), st)
  | none =>
    if st.closed ∧ st.read_buffer.isEmpty then (.ready (.ok (0, [])), st)
    else if st.read_buffer.isEmpty then (.pending, st)
    else
      let to_copy := min bufLen st.read_buffer.length
      (.ready (.ok (to_copy, st.read_buffer.take to_copy)),
       { st with read_buffer := st.read_buffer.drop to_copy })

/-- Iterated `SecureConnection::write`: the connection state after a
sequence of write calls (successful or not), ignoring the emitted
frames. -/
def writeMany (enc : AeadEncT) (sendErr : Option IOErrorKind)
    (conn : SecureConnection) (bufs : List (List Nat)) : SecureConnection :=
  bufs.foldl (fun c b => (SecureConnection.write enc sendErr c b).1) conn

/-! ## Concrete fixtures (used by witnesses only) -/

/-- An always-accepting signature verifier. -/
def edVerifyW : EdVerifyT := fun _ _ _ => true

/-- A trivial shared-secret function. -/
def dhW : DhT := fun spk => spk

/-- A trivial key-derivation function. -/
def hkW : HkdfT := fun salt ikm _ _ => salt ++ ikm

/-- A concrete 12-byte client nonce. -/
def cnW : List Nat := List.replicate 12 3

/-- A concrete server `SignedPayload` with a 64-byte signature. -/
def ssW : SignedPayload := { data := [1], signature := List.replicate 64 0 }

/-- A concrete valid `ServerInitPayload`. -/
def siW : ServerInitPayload :=
  { version := 1, nonce := List.replicate 12 4, timestamp := 0,
    identity := some { id := "", public_key := List.replicate 32 0 },
    alpn := "http", session_public_key := List.replicate 32 5 }

/-- The channel produced by the handshake on the fixture inputs. -/
def connW : SecureConnection :=
  { encryptKey := derive_key hkW (dhW siW.session_public_key)
      (cnW ++ siW.nonce) CLIENT_KEY_INFO,
    decryptKey := derive_key hkW (dhW siW.session_public_key)
      (siW.nonce ++ cnW) SERVER_KEY_INFO,
    encryptNonce := cnW, decryptNonce := siW.nonce }

/-! ## Helper lemmas -/

theorem write_fst (enc : AeadEncT) (sendErr : Option IOErrorKind)
    (conn : SecureConnection) (buf : List Nat) :
    (SecureConnection.write enc sendErr conn buf).1 =
      { conn with encryptNonce := increment_nonce conn.encryptNonce } := by
  unfold SecureConnection.write
  dsimp only
  cases enc (increment_nonce conn.encryptNonce) buf with
  | none => rfl
  | some ct => cases sendErr <;> rfl

theorem writeMany_encryptNonce (enc : AeadEncT) (sendErr : Option IOErrorKind)
    (conn : SecureConnection) (bufs : List (List Nat)) :
    (writeMany enc sendErr conn bufs).encryptNonce =
      increment_nonce^[bufs.length] conn.encryptNonce := by
  induction bufs generalizing conn with
  | nil => rfl
  | cons b rest ih =>
    simp only [writeMany, List.foldl_cons, List.length_cons] at *
    rw [ih, write_fst]
    rw [Function.iterate_succ_apply]

theorem write_ok (enc : AeadEncT) (sendErr : Option IOErrorKind)
    (conn c' : SecureConnection) (buf : List Nat) (f : EncryptedData) (n : Nat)
    (h : SecureConnection.write enc sendErr conn buf = (c', .ok (f, n))) :
    f.nonce = increment_nonce conn.encryptNonce ∧
    c'.encryptNonce = f.nonce ∧
    enc (increment_nonce conn.encryptNonce) buf = some f.payload ∧
    n = buf.length := by
  unfold SecureConnection.write at h
  dsimp only at h
  cases he : enc (increment_nonce conn.encryptNonce) buf with
  | none => rw [he] at h; simp at h
  | some ct =>
    rw [he] at h
    cases sendErr with
    | some e => simp at h
    | none =>
      simp only [Prod.mk.injEq, Except.ok.injEq] at h
      obtain ⟨hc, hf, hn⟩ := h
      subst hc hn
      constructor
      · rw [← hf]
      · refine ⟨?_, ?_, rfl⟩
        · rw [← hf]
        · rw [← hf]

theorem read_ok (dec : AeadDecT) (conn c' : SecureConnection)
    (frame : EncryptedData) (bufLen n : Nat) (out : List Nat)
    (h : SecureConnection.read dec conn frame bufLen = (c', .ok (n, out))) :
    frame.nonce = conn.decryptNonce ∧
    c' = { conn with decryptNonce := increment_nonce conn.decryptNonce } ∧
    ∃ pt, dec conn.decryptNonce frame.payload = some pt ∧
      n = min bufLen pt.length ∧ out = pt.take n := by
  unfold SecureConnection.read at h
  by_cases h1 : frame.nonce.length ≠ NONCE_SIZE
  · simp [h1] at h
  · simp only [h1, if_false] at h
    by_cases h2 : frame.nonce ≠ conn.decryptNonce
    · simp [h2] at h
    · push_neg at h2
      simp only [h2, ne_eq, not_true_eq_false, if_false] at h
      cases hd : dec conn.decryptNonce frame.payload with
      | none => rw [hd] at h; simp at h
      | some pt =>
        rw [hd] at h
        simp only [Prod.mk.injEq, Except.ok.injEq] at h
        obtain ⟨hc, hn, hout⟩ := h
        refine ⟨h2, hc.symm, pt, rfl, hn.symm, ?_⟩
        rw [← hn]
        exact hout.symm

theorem read_error_state (dec : AeadDecT) (conn c' : SecureConnection)
    (frame : EncryptedData) (bufLen : Nat) (e : IOErrorKind)
    (h : SecureConnection.read dec conn frame bufLen = (c', .error e)) :
    c' = conn := by
  unfold SecureConnection.read at h
  by_cases h1 : frame.nonce.length ≠ NONCE_SIZE
  · simp [h1] at h; exact h.1.symm
  · simp only [h1, if_false] at h
    by_cases h2 : frame.nonce ≠ conn.decryptNonce
    · simp [h2] at h; exact h.1.symm
    · push_neg at h2
      simp only [h2, ne_eq, not_true_eq_false, if_false] at h
      cases hd : dec conn.decryptNonce frame.payload with
      | none => rw [hd] at h; simp at h; exact h.1.symm
      | some pt => rw [hd] at h; simp at h

theorem increment_nonce_ne (d : List Nat) (hb : isBytes d) (h12 : d.length = 12) :
    increment_nonce d ≠ d := by
  intro heq
  have hv := beVal_increment_nonce d hb
  rw [heq, h12] at hv
  have hlt : beVal d < 256 ^ 12 := by
    have := leVal_lt d.reverse (isBytes_reverse d hb)
    simpa [beVal, List.length_reverse, h12] using this
  have hM1 : (1 : Nat) < 256 ^ 12 := by norm_num
  rcases Nat.lt_or_ge (beVal d + 1) (256 ^ 12) with hc | hc
  · rw [Nat.mod_eq_of_lt hc] at hv; omega
  · have he : beVal d + 1 = 256 ^ 12 := by omega
    rw [he, Nat.mod_self] at hv
    omega

/-! ## Claims -/

/-- C2: `increment_nonce` on a 12-byte nonce yields the 12-byte
big-endian representation of `(n + 1) mod 2^96`, where `n` is the
big-endian value of the input; the all-ones nonce wraps to all-zeros;
the operation is total (it never fails). -/
theorem increment_nonce_spec (nonce : List Nat) (h12 : nonce.length = 12)
    (hb : isBytes nonce) :
    (increment_nonce nonce).length = 12 ∧
    isBytes (increment_nonce nonce) ∧
    beVal (increment_nonce nonce) = (beVal nonce + 1) % 2 ^ 96 ∧
    increment_nonce (List.replicate 12 255) = List.replicate 12 0 := by
  refine ⟨by rw [increment_nonce_length, h12], increment_nonce_isBytes nonce hb,
    ?_, by decide⟩
  rw [beVal_increment_nonce nonce hb, h12]
  norm_num

/-- Witness for C2 at the concrete nonce `00…00ff`. -/
theorem increment_nonce_spec_witness :
    ([0, 0, 0, 0, 0, 0, 0, 0, 0, 0, 0, 255] : List Nat).length = 12 ∧
    isBytes [0, 0, 0, 0, 0, 0, 0, 0, 0, 0, 0, 255] ∧
    beVal (increment_nonce [0, 0, 0, 0, 0, 0, 0, 0, 0, 0, 0, 255]) =
      (beVal [0, 0, 0, 0, 0, 0, 0, 0, 0, 0, 0, 255] + 1) % 2 ^ 96 :=
  ⟨by decide, by decide,
    (increment_nonce_spec [0, 0, 0, 0, 0, 0, 0, 0, 0, 0, 0, 255]
      (by decide) (by decide)).2.2.1⟩

/-- C3: `SecureConnection::read` returns `InvalidData` yielding no
plaintext (and leaving the state unchanged) whenever the frame's nonce
is not exactly 12 bytes or differs bytewise from the decrypt counter;
in particular a replayed frame, whose nonce is the predecessor of the
expected one (`increment_nonce` of it equals the counter), is
rejected. -/
theorem read_rejects_nonce_mismatch (dec : AeadDecT) (conn : SecureConnection)
    (frame : EncryptedData) (bufLen : Nat)
    (h : frame.nonce.length ≠ 12 ∨ frame.nonce ≠ conn.decryptNonce) :
    SecureConnection.read dec conn frame bufLen = (conn, .error .invalidData) ∧
    (∀ d payload, isBytes d → d.length = 12 →
      increment_nonce d = conn.decryptNonce →
      SecureConnection.read dec conn { nonce := d, payload := payload } bufLen =
        (conn, .error .invalidData)) := by
  constructor
  · unfold SecureConnection.read
    by_cases h1 : frame.nonce.length = NONCE_SIZE
    · have h2 : frame.nonce ≠ conn.decryptNonce := by
        rcases h with h | h
        · exact absurd h1 (by simpa [NONCE_SIZE] using h)
        · exact h
      simp [h1, h2]
    · simp [h1]
  · intro d payload hbd hd12 hinc
    have hne : d ≠ conn.decryptNonce := by
      intro hEq
      exact increment_nonce_ne d hbd hd12 (by rw [hEq] at hinc ⊢; exact hinc)
    unfold SecureConnection.read
    simp [NONCE_SIZE, hd12, hne]

/-- Witness for C3: a frame whose nonce is the predecessor of the
expected all-zeros-then-one counter is rejected. -/
theorem read_rejects_nonce_mismatch_witness :
    ((EncryptedData.mk [0, 0, 0, 0, 0, 0, 0, 0, 0, 0, 0, 0] [1, 2]).nonce.length ≠ 12 ∨
      (EncryptedData.mk [0, 0, 0, 0, 0, 0, 0, 0, 0, 0, 0, 0] [1, 2]).nonce ≠
        (SecureConnection.mk [] [] [] [0, 0, 0, 0, 0, 0, 0, 0, 0, 0, 0, 1]).decryptNonce) ∧
    SecureConnection.read (fun _ p => some p)
      (SecureConnection.mk [] [] [] [0, 0, 0, 0, 0, 0, 0, 0, 0, 0, 0, 1])
      (EncryptedData.mk [0, 0, 0, 0, 0, 0, 0, 0, 0, 0, 0, 0] [1, 2]) 16 =
      ((SecureConnection.mk [] [] [] [0, 0, 0, 0, 0, 0, 0, 0, 0, 0, 0, 1]),
        .error .invalidData) :=
  ⟨by decide,
    (read_rejects_nonce_mismatch (fun _ p => some p)
      (SecureConnection.mk [] [] [] [0, 0, 0, 0, 0, 0, 0, 0, 0, 0, 0, 1])
      (EncryptedData.mk [0, 0, 0, 0, 0, 0, 0, 0, 0, 0, 0, 0] [1, 2]) 16
      (by decide)).1⟩

/-- C8: a successful `SecureConnection::read` copies
`min(len(buf), len(pt))` bytes, those bytes are the corresponding prefix
of the plaintext, and the connection state after the call holds only
keys and nonce counters — the excess plaintext is discarded, so any
later successful read yields bytes decrypted from that later frame, not
the remainder. -/
theorem read_truncates_to_buffer (dec : AeadDecT) (conn c' : SecureConnection)
    (frame : EncryptedData) (bufLen n : Nat) (out : List Nat)
    (h : SecureConnection.read dec conn frame bufLen = (c', .ok (n, out))) :
    (∃ pt, dec conn.decryptNonce frame.payload = some pt ∧
      n = min bufLen pt.length ∧ out = pt.take n) ∧
    c' = { conn with decryptNonce := increment_nonce conn.decryptNonce } ∧
    (∀ f2 bl2 c2 n2 out2,
      SecureConnection.read dec c' f2 bl2 = (c2, .ok (n2, out2)) →
      ∃ pt2, dec c'.decryptNonce f2.payload = some pt2 ∧
        n2 = min bl2 pt2.length ∧ out2 = pt2.take n2) := by
  obtain ⟨-, hc, hpt⟩ := read_ok dec conn c' frame bufLen n out h
  refine ⟨hpt, hc, ?_⟩
  intro f2 bl2 c2 n2 out2 h2
  obtain ⟨-, -, hpt2⟩ := read_ok dec c' c2 f2 bl2 n2 out2 h2
  exact hpt2

/-- Witness for C8: a 3-byte plaintext read into a 2-byte buffer copies
exactly the 2-byte prefix. -/
theorem read_truncates_to_buffer_witness :
    SecureConnection.read (fun _ p => some p)
      (SecureConnection.mk [] [] [] [0, 0, 0, 0, 0, 0, 0, 0, 0, 0, 0, 0])
      (EncryptedData.mk [0, 0, 0, 0, 0, 0, 0, 0, 0, 0, 0, 0] [7, 8, 9]) 2 =
      ((SecureConnection.mk [] [] [] [0, 0, 0, 0, 0, 0, 0, 0, 0, 0, 0, 1]),
        .ok (2, [7, 8])) ∧
    (∃ pt, (fun (_ : List Nat) (p : List Nat) => some p)
        ([0, 0, 0, 0, 0, 0, 0, 0, 0, 0, 0, 0] : List Nat) [7, 8, 9] = some pt ∧
      2 = min 2 pt.length ∧ [7, 8] = pt.take 2) :=
  ⟨by rfl,
    ((read_truncates_to_buffer (fun _ p => some p)
      (SecureConnection.mk [] [] [] [0, 0, 0, 0, 0, 0, 0, 0, 0, 0, 0, 0])
      (SecureConnection.mk [] [] [] [0, 0, 0, 0, 0, 0, 0, 0, 0, 0, 0, 1])
      (EncryptedData.mk [0, 0, 0, 0, 0, 0, 0, 0, 0, 0, 0, 0] [7, 8, 9])
      2 2 [7, 8] (by rfl)).1)⟩

/-- C9: when `SecureConnection::write` returns an error — from a failed
encryption or from a failed frame write — the encrypt nonce has
nevertheless advanced by one increment: the increment precedes every
fallible step, so a failed write still consumes a nonce value. -/
theorem write_error_still_increments (enc : AeadEncT)
    (sendErr : Option IOErrorKind) (conn : SecureConnection) (buf : List Nat)
    (_h : ((SecureConnection.write enc sendErr conn buf).2).isOk = false) :
    (SecureConnection.write enc sendErr conn buf).1 =
      { conn with encryptNonce := increment_nonce conn.encryptNonce } :=
  write_fst enc sendErr conn buf

/-- Witness for C9: a write whose encryption fails still advances the
nonce from all-zeros to `00…01`. -/
theorem write_error_still_increments_witness :
    ((SecureConnection.write (fun _ _ => none) none
      (SecureConnection.mk [] [] [0, 0, 0, 0, 0, 0, 0, 0, 0, 0, 0, 0] [])
      [5]).2).isOk = false ∧
    (SecureConnection.write (fun _ _ => none) none
      (SecureConnection.mk [] [] [0, 0, 0, 0, 0, 0, 0, 0, 0, 0, 0, 0] [])
      [5]).1 =
      { SecureConnection.mk [] [] [0, 0, 0, 0, 0, 0, 0, 0, 0, 0, 0, 0] [] with
        encryptNonce :=
          increment_nonce [0, 0, 0, 0, 0, 0, 0, 0, 0, 0, 0, 0] } :=
  ⟨by decide,
    write_error_still_increments (fun _ _ => none) none
      (SecureConnection.mk [] [] [0, 0, 0, 0, 0, 0, 0, 0, 0, 0, 0, 0] [])
      [5] (by decide)⟩

/-- C10: `poll_read` with a zero-length buffer while the receive queue
is non-empty (and no error is set) returns `Ready(Ok(0))` with an
unchanged state — the same value that the closed-and-drained stream
returns as end-of-stream — so 0 bytes from `poll_read` does not imply
the stream is closed. -/
theorem poll_read_zero_len_ready_zero (st : WsState)
    (herr : st.error = none) (hne : st.read_buffer ≠ []) :
    st.poll_read 0 = (.ready (.ok (0, [])), st) ∧
    (∀ st2 : WsState, st2.error = none → st2.closed = true →
      st2.read_buffer = [] → ∀ bl, (st2.poll_read bl).1 = .ready (.ok (0, []))) := by
  constructor
  · unfold WsState.poll_read
    rw [herr]
    have hie : st.read_buffer.isEmpty = false := by
      simpa [List.isEmpty_iff] using hne
    simp [hie]
    rw [← herr]
  · intro st2 h1 h2 h3 bl
    unfold WsState.poll_read
    rw [h1]
    simp [h2, h3]

/-- Witness for C10: a live stream holding one queued byte polled with
an empty buffer returns `Ready(Ok(0))`. -/
theorem poll_read_zero_len_ready_zero_witness :
    (WsState.mk [9] false none).error = none ∧
    (WsState.mk [9] false none).read_buffer ≠ [] ∧
    (WsState.mk [9] false none).poll_read 0 =
      (.ready (.ok (0, [])), WsState.mk [9] false none) :=
  ⟨rfl, by decide,
    (poll_read_zero_len_ready_zero (WsState.mk [9] false none)
      rfl (by decide)).1⟩

theorem u32be_length (n : Nat) : (u32be n).length = 4 := rfl

theorem beVal_u32be (n : Nat) (h : n < 2 ^ 32) : beVal (u32be n) = n := by
  simp only [u32be, beVal, List.reverse_cons, List.reverse_nil, List.nil_append,
    List.cons_append, leVal]
  omega

/-- C4 counterexample: `write_length_prefixed` on a healthy transport
succeeds on a payload of `2^26 + 1` bytes — the write path performs no
size check, contrary to the claim that it fails above `2^26`. -/
theorem write_length_prefixed_oversize_ok :
    (List.replicate (2 ^ 26 + 1) (0 : Nat)).length > 2 ^ 26 ∧
    (write_length_prefixed none (List.replicate (2 ^ 26 + 1) (0 : Nat))).isOk
      = true := by
  constructor
  · rw [List.length_replicate]
    omega
  · rfl

/-- C4 (amended): `write_length_prefixed` performs no size validation —
on a healthy transport it succeeds for every payload, emitting the
payload length as a big-endian `u32` (truncated mod `2^32` by the
`as u32` cast) followed by the payload; oversize frames are rejected
only by `read_length_prefixed` on the receiving side, which fails with
`InvalidData` on any emitted frame whose payload exceeds `2^26` bytes. -/
theorem write_length_prefixed_no_size_check (data tail : List Nat) :
    write_length_prefixed none data =
      .ok (u32be (data.length % 2 ^ 32) ++ data) ∧
    (2 ^ 26 < data.length → data.length < 2 ^ 32 →
      read_length_prefixed (u32be (data.length % 2 ^ 32) ++ data ++ tail) =
        .error .invalidData) := by
  refine ⟨rfl, fun hgt hlt => ?_⟩
  have hmod : data.length % 2 ^ 32 = data.length := Nat.mod_eq_of_lt hlt
  rw [hmod, List.append_assoc]
  unfold read_length_prefixed
  have hge : ¬ ((u32be data.length ++ (data ++ tail)).length < 4) := by
    rw [List.length_append, u32be_length]
    omega
  rw [if_neg hge]
  dsimp only
  rw [List.take_left' (u32be_length data.length), beVal_u32be data.length hlt,
    if_pos (by simpa [MAX_RAW_PACKET_SIZE] using hgt)]

/-- Witness for the amended C4: a `2^26 + 1`-byte payload is emitted by
the write path and rejected by the read path. -/
theorem write_length_prefixed_no_size_check_witness :
    2 ^ 26 < (List.replicate (2 ^ 26 + 1) (0 : Nat)).length ∧
    read_length_prefixed
      (u32be ((List.replicate (2 ^ 26 + 1) (0 : Nat)).length % 2 ^ 32) ++
        List.replicate (2 ^ 26 + 1) (0 : Nat) ++ []) = .error .invalidData :=
  ⟨by rw [List.length_replicate]; omega,
    (write_length_prefixed_no_size_check (List.replicate (2 ^ 26 + 1) 0) []).2
      (by rw [List.length_replicate]; omega)
      (by rw [List.length_replicate]; norm_num)⟩

/-- C5: `read_length_prefixed` reads a 4-byte big-endian length `L`,
fails with `InvalidData` for every `L > 2^26` without touching the
payload bytes, otherwise consumes exactly `L` payload bytes and returns
them; fewer than 4 header bytes, or a stream ending before `L` payload
bytes, yield `UnexpectedEof`. -/
theorem read_length_prefixed_spec (L : Nat) (payload rest stream : List Nat) :
    (payload.length = L → L ≤ 2 ^ 26 →
      read_length_prefixed (u32be L ++ payload ++ rest) = .ok (payload, rest)) ∧
    (2 ^ 26 < L → L < 2 ^ 32 →
      read_length_prefixed (u32be L ++ stream) = .error .invalidData) ∧
    (stream.length < 4 → read_length_prefixed stream = .error .unexpectedEof) ∧
    (payload.length < L → L ≤ 2 ^ 26 →
      read_length_prefixed (u32be L ++ payload) = .error .unexpectedEof) := by
  have hlt32 : ∀ M : Nat, M ≤ 2 ^ 26 → M < 2 ^ 32 := by intro M h; omega
  refine ⟨fun hpl hle => ?_, fun hgt hlt => ?_, fun hs => ?_, fun hpl hle => ?_⟩
  · rw [List.append_assoc]
    unfold read_length_prefixed
    have hge : ¬ ((u32be L ++ (payload ++ rest)).length < 4) := by
      rw [List.length_append, u32be_length]; omega
    rw [if_neg hge]
    dsimp only
    rw [List.take_left' (u32be_length L), beVal_u32be L (hlt32 L hle),
      List.drop_left' (u32be_length L)]
    have hnot : ¬ (L > MAX_RAW_PACKET_SIZE) := by
      simp only [MAX_RAW_PACKET_SIZE]; omega
    rw [if_neg hnot]
    have hnot2 : ¬ ((payload ++ rest).length < L) := by
      rw [List.length_append, hpl]; omega
    rw [if_neg hnot2, ← hpl, List.take_left, List.drop_left]
  · unfold read_length_prefixed
    have hge : ¬ ((u32be L ++ stream).length < 4) := by
      rw [List.length_append, u32be_length]; omega
    rw [if_neg hge]
    dsimp only
    rw [List.take_left' (u32be_length L), beVal_u32be L hlt,
      if_pos (by simpa [MAX_RAW_PACKET_SIZE] using hgt)]
  · unfold read_length_prefixed
    rw [if_pos hs]
  · unfold read_length_prefixed
    have hge : ¬ ((u32be L ++ payload).length < 4) := by
      rw [List.length_append, u32be_length]; omega
    rw [if_neg hge]
    dsimp only
    rw [List.take_left' (u32be_length L), beVal_u32be L (hlt32 L hle),
      List.drop_left' (u32be_length L)]
    have hnot : ¬ (L > MAX_RAW_PACKET_SIZE) := by
      simp only [MAX_RAW_PACKET_SIZE]; omega
    rw [if_neg hnot, if_pos hpl]

/-- Witness for C5: the frame `00 00 00 02 || 07 08` followed by a
trailing byte yields the 2-byte payload and the remainder. -/
theorem read_length_prefixed_spec_witness :
    ([7, 8] : List Nat).length = 2 ∧ 2 ≤ 2 ^ 26 ∧
    read_length_prefixed (u32be 2 ++ [7, 8] ++ [9]) = .ok ([7, 8], [9]) :=
  ⟨rfl, by norm_num,
    (read_length_prefixed_spec 2 [7, 8] [9] []).1 rfl (by norm_num)⟩

theorem verify_signature_ok (edV : EdVerifyT) (i : Identity) (ss : SignedPayload)
    (u : Unit) (h : verify_signature edV i ss = .ok u) :
    i.public_key.length = 32 ∧ ss.signature.length = 64 ∧
    edV i.public_key ss.data ss.signature = true := by
  unfold verify_signature at h
  by_cases h1 : i.public_key.length ≠ 32
  · rw [if_pos h1] at h; exact absurd h (by simp)
  · rw [if_neg h1] at h
    by_cases h2 : ss.signature.length ≠ 64
    · rw [if_pos h2] at h; exact absurd h (by simp)
    · rw [if_neg h2] at h
      by_cases h3 : edV i.public_key ss.data ss.signature = true
      · push_neg at h1 h2
        exact ⟨h1, h2, h3⟩
      · rw [if_neg h3] at h; exact absurd h (by simp)

theorem client_handshake_ok (edV : EdVerifyT) (dh : DhT) (hk : HkdfT)
    (cn : List Nat) (ss : SignedPayload) (si : ServerInitPayload)
    (conn : SecureConnection)
    (h : client_handshake edV dh hk cn ss si = .ok conn) :
    si.version = 1 ∧
    (∃ i, si.identity = some i ∧ verify_signature edV i ss = .ok ()) ∧
    si.session_public_key.length = 32 ∧
    cn.length = 12 ∧ si.nonce.length = 12 ∧
    conn = { encryptKey := derive_key hk (dh si.session_public_key)
               (cn ++ si.nonce) CLIENT_KEY_INFO,
             decryptKey := derive_key hk (dh si.session_public_key)
               (si.nonce ++ cn) SERVER_KEY_INFO,
             encryptNonce := cn, decryptNonce := si.nonce } := by
  unfold client_handshake at h
  by_cases hv : si.version ≠ 1
  · rw [if_pos hv] at h; exact absurd h (by simp)
  · rw [if_neg hv] at h
    push_neg at hv
    cases hid : si.identity with
    | none => rw [hid] at h; exact absurd h (by simp)
    | some i =>
      rw [hid] at h
      dsimp only at h
      cases hvs : verify_signature edV i ss with
      | error e => rw [hvs] at h; exact absurd h (by simp)
      | ok u =>
        rw [hvs] at h
        by_cases hpk : si.session_public_key.length ≠ 32
        · rw [if_pos hpk] at h; exact absurd h (by simp)
        · rw [if_neg hpk] at h
          push_neg at hpk
          dsimp only at h
          by_cases hcn : cn.length ≠ NONCE_SIZE
          · rw [if_pos hcn] at h; exact absurd h (by simp)
          · rw [if_neg hcn] at h
            by_cases hsn : si.nonce.length ≠ NONCE_SIZE
            · rw [if_pos hsn] at h; exact absurd h (by simp)
            · rw [if_neg hsn] at h
              push_neg at hcn hsn
              injection h with h
              refine ⟨hv, ⟨i, rfl, by cases u; exact hvs⟩, hpk,
                by simpa [NONCE_SIZE] using hcn, by simpa [NONCE_SIZE] using hsn,
                h.symm⟩

/-- C7: `client_handshake` yields a channel only when the received
ServerInit passes validation — version 1, identity present, a 32-byte
identity public key, a 64-byte signature accepted by strict Ed25519
verification of the signed payload, and a 32-byte session public key —
and returns an error whenever any of these conditions fails. -/
theorem client_handshake_validates (edV : EdVerifyT) (dh : DhT) (hk : HkdfT)
    (cn : List Nat) (ss : SignedPayload) (si : ServerInitPayload) :
    (∀ conn, client_handshake edV dh hk cn ss si = .ok conn →
      si.version = 1 ∧
      (∃ i, si.identity = some i ∧ i.public_key.length = 32 ∧
        ss.signature.length = 64 ∧
        edV i.public_key ss.data ss.signature = true) ∧
      si.session_public_key.length = 32) ∧
    ((si.version ≠ 1 ∨ si.identity = none ∨
      (∃ i, si.identity = some i ∧
        (i.public_key.length ≠ 32 ∨ ss.signature.length ≠ 64 ∨
         edV i.public_key ss.data ss.signature = false)) ∨
      si.session_public_key.length ≠ 32) →
      ∃ e, client_handshake edV dh hk cn ss si = .error e) := by
  constructor
  · intro conn h
    obtain ⟨hv, ⟨i, hid, hvs⟩, hpk, -, -, -⟩ :=
      client_handshake_ok edV dh hk cn ss si conn h
    obtain ⟨h32, h64, hed⟩ := verify_signature_ok edV i ss () hvs
    exact ⟨hv, ⟨i, hid, h32, h64, hed⟩, hpk⟩
  · intro hbad
    cases hres : client_handshake edV dh hk cn ss si with
    | error e => exact ⟨e, rfl⟩
    | ok conn =>
      exfalso
      obtain ⟨hv, ⟨i, hid, hvs⟩, hpk, -, -, -⟩ :=
        client_handshake_ok edV dh hk cn ss si conn hres
      obtain ⟨h32, h64, hed⟩ := verify_signature_ok edV i ss () hvs
      rcases hbad with h | h | ⟨j, hj, hbad2⟩ | h
      · exact h hv
      · rw [hid] at h; cases h
      · rw [hid] at hj
        injection hj with hj
        subst hj
        rcases hbad2 with h | h | h
        · exact h h32
        · exact h h64
        · rw [hed] at h; cases h
      · exact h hpk

/-- Witness for C7: on fixture inputs the handshake succeeds, so all
validation conditions held. -/
theorem client_handshake_validates_witness :
    siW.version = 1 ∧
    (∃ i, siW.identity = some i ∧ i.public_key.length = 32 ∧
      ssW.signature.length = 64 ∧
      edVerifyW i.public_key ssW.data ssW.signature = true) ∧
    siW.session_public_key.length = 32 :=
  (client_handshake_validates edVerifyW dhW hkW cnW ssW siW).1 connW (by rfl)

/-- C6: a successful `client_handshake` derives
`encrypt_key = HKDF-SHA256(salt = client_nonce ‖ server_nonce,
ikm = shared secret, info = RDSEC_KEY_CLIENT, 32 bytes)` and
`decrypt_key = HKDF-SHA256(salt = server_nonce ‖ client_nonce, same
ikm, info = RDSEC_KEY_SERVER, 32 bytes)`, and initializes
`encrypt_nonce` to the client nonce and `decrypt_nonce` to the server
nonce. -/
theorem client_handshake_key_schedule (edV : EdVerifyT) (dh : DhT) (hk : HkdfT)
    (cn : List Nat) (ss : SignedPayload) (si : ServerInitPayload)
    (conn : SecureConnection)
    (h : client_handshake edV dh hk cn ss si = .ok conn) :
    conn.encryptKey =
      hk (cn ++ si.nonce) (dh si.session_public_key) CLIENT_KEY_INFO 32 ∧
    conn.decryptKey =
      hk (si.nonce ++ cn) (dh si.session_public_key) SERVER_KEY_INFO 32 ∧
    conn.encryptNonce = cn ∧ conn.decryptNonce = si.nonce := by
  obtain ⟨-, -, -, -, -, hconn⟩ := client_handshake_ok edV dh hk cn ss si conn h
  subst hconn
  exact ⟨rfl, rfl, rfl, rfl⟩

/-- Witness for C6 on the fixture handshake. -/
theorem client_handshake_key_schedule_witness :
    connW.encryptKey =
      hkW (cnW ++ siW.nonce) (dhW siW.session_public_key) CLIENT_KEY_INFO 32 ∧
    connW.decryptKey =
      hkW (siW.nonce ++ cnW) (dhW siW.session_public_key) SERVER_KEY_INFO 32 ∧
    connW.encryptNonce = cnW ∧ connW.decryptNonce = siW.nonce :=
  client_handshake_key_schedule edVerifyW dhW hkW cnW ssW siW connW (by rfl)

/-- C1: on a channel produced by `client_handshake`, the k-th write
call (counting every call) encrypts and stamps its frame with the
client's initial nonce incremented k+1 times — in particular the first
write uses `client_nonce + 1` — each write advancing the counter to the
nonce just used; the first successful read accepts exactly frames
stamped with the server's initial nonce unmodified, and every
successful read requires the on-wire nonce to equal the current decrypt
counter, which advances by one increment only after a successful
decryption (failed reads leave it unchanged), so each accepted nonce is
the predecessor's increment. -/
theorem client_nonce_discipline (edV : EdVerifyT) (dh : DhT) (hk : HkdfT)
    (cn : List Nat) (ss : SignedPayload) (si : ServerInitPayload)
    (conn0 : SecureConnection) (enc : AeadEncT) (dec : AeadDecT)
    (sendErr : Option IOErrorKind)
    (h : client_handshake edV dh hk cn ss si = .ok conn0) :
    conn0.encryptNonce = cn ∧ conn0.decryptNonce = si.nonce ∧
    (∀ bufs buf c' f n,
      SecureConnection.write enc sendErr (writeMany enc sendErr conn0 bufs) buf
        = (c', .ok (f, n)) →
      f.nonce = increment_nonce^[bufs.length + 1] cn ∧
      c'.encryptNonce = f.nonce) ∧
    (∀ c buf c' f n,
      SecureConnection.write enc sendErr c buf = (c', .ok (f, n)) →
      f.nonce = increment_nonce c.encryptNonce ∧ c'.encryptNonce = f.nonce ∧
      enc f.nonce buf = some f.payload) ∧
    (∀ f bl c' r, SecureConnection.read dec conn0 f bl = (c', .ok r) →
      f.nonce = si.nonce) ∧
    (∀ f bl, f.nonce = si.nonce → (∃ pt, dec si.nonce f.payload = some pt) →
      ((SecureConnection.read dec conn0 f bl).2).isOk = true) ∧
    (∀ c f bl c' r, SecureConnection.read dec c f bl = (c', .ok r) →
      f.nonce = c.decryptNonce ∧ c'.decryptNonce = increment_nonce f.nonce) ∧
    (∀ c f bl c' e, SecureConnection.read dec c f bl = (c', .error e) →
      c' = c) := by
  obtain ⟨-, -, -, -, hsn12, hconn⟩ :=
    client_handshake_ok edV dh hk cn ss si conn0 h
  have hen : conn0.encryptNonce = cn := by rw [hconn]
  have hdn : conn0.decryptNonce = si.nonce := by rw [hconn]
  refine ⟨hen, hdn, ?_, ?_, ?_, ?_, ?_, ?_⟩
  · intro bufs buf c' f n hw
    obtain ⟨hf, hc, -, -⟩ := write_ok enc sendErr _ c' buf f n hw
    rw [writeMany_encryptNonce, hen] at hf
    rw [Function.iterate_succ_apply']
    exact ⟨hf, by rw [hc]⟩
  · intro c buf c' f n hw
    obtain ⟨hf, hc, hpayload, -⟩ := write_ok enc sendErr c c' buf f n hw
    exact ⟨hf, hc, by rw [hf]; exact hpayload⟩
  · intro f bl c' r hr
    obtain ⟨n, out⟩ := r
    obtain ⟨hf, -, -⟩ := read_ok dec conn0 c' f bl n out hr
    rw [hf, hdn]
  · intro f bl hfn ⟨pt, hpt⟩
    unfold SecureConnection.read
    have h1 : f.nonce.length = NONCE_SIZE := by
      rw [hfn, NONCE_SIZE]; exact hsn12
    have h2 : f.nonce = conn0.decryptNonce := by rw [hfn, hdn]
    rw [if_neg (by simp [h1]), if_neg (by simp [h2]), ← h2, hfn, hpt]
    rfl
  · intro c f bl c' r hr
    obtain ⟨n, out⟩ := r
    obtain ⟨hf, hc, -⟩ := read_ok dec c c' f bl n out hr
    exact ⟨hf, by rw [hc, hf]⟩
  · intro c f bl c' e hr
    exact read_error_state dec c c' f bl e hr

/-- Witness for C1: the fixture handshake succeeds and the channel
starts at the client nonce. -/
theorem client_nonce_discipline_witness :
    client_handshake edVerifyW dhW hkW cnW ssW siW = .ok connW ∧
    connW.encryptNonce = cnW :=
  ⟨rfl, (client_nonce_discipline edVerifyW dhW hkW cnW ssW siW connW
    (fun _ p => some p) (fun _ p => some p) none rfl).1⟩

end Portal
